import Mathlib

/-
  Verification development for the client-side resource/sync engine of the
  repository (the `resources` module: `APIResource`, `IndexedDBResource`,
  `Resource`, and the `Tree` resource).

  The JavaScript source is shallowly embedded:
  * JS objects become association lists of `String × JVal` with last-binding
    lookup (`getF`) and `Object.assign` semantics (`assign`);
  * numbers become `ℚ` (the `lft` ordering key is real-valued; `null` is an
    explicit `Option` value that coerces to `0` in arithmetic, as in JS);
  * promise-returning operations become `Except String` values, with
    `.error` standing for a rejected promise (TypeError / RangeError);
  * the IndexedDB tables become Lean lists, with Dexie `put` modelled as
    replace-or-append and `where`/`anyOf` modelled as filters (plus an
    index-order sort for `anyOf`);
  * `uuid4` is modelled by drawing from an explicit supply of fresh ids
    carried in the state;
  * concurrent promise scheduling is modelled sequentially (one execution
    context, cooperative scheduling), and `console` logging is not modelled
    (production-build semantics: the dev-only `console.warning` calls are
    no-ops here).
-/

instance {ε α : Type} [DecidableEq ε] [DecidableEq α] : DecidableEq (Except ε α)
  | .error e, .error f =>
    if h : e = f then .isTrue (congrArg Except.error h)
    else .isFalse fun c => h (Except.error.inj c)
  | .error _, .ok _ => .isFalse Except.noConfusion
  | .ok _, .error _ => .isFalse Except.noConfusion
  | .ok a, .ok b =>
    if h : a = b then .isTrue (congrArg Except.ok h)
    else .isFalse fun c => h (Except.ok.inj c)

/-- JavaScript primitive values that appear in stored objects. -/
inductive JVal where
  | num (q : ℚ)
  | str (s : String)
  | jbool (b : Bool)
  | jnull
deriving DecidableEq, Repr

/-- A JavaScript object: an association list of fields.  Lookup takes the
last binding, matching JS objects (where keys are unique and later literal
bindings win). -/
abbrev Obj := List (String × JVal)

/-- Field lookup on an object (last binding wins). -/
def getF : Obj → String → Option JVal
  | [], _ => none
  | p :: rest, k => (getF rest k).or (if p.1 = k then some p.2 else none)

/-- Replace every binding of a key that is already present. -/
def replaceF : Obj → String → JVal → Obj
  | [], _, _ => []
  | p :: rest, k, v => (if p.1 = k then (k, v) else p) :: replaceF rest k v

/-- JS property assignment `o[k] = v`: overwrite the binding if the key is
present, otherwise append it. -/
def setF (o : Obj) (k : String) (v : JVal) : Obj :=
  if o.any (fun p => p.1 == k) then replaceF o k v else o ++ [(k, v)]

/-- `Object.assign(target, source)`: every binding of `source` is written
onto `target`, in order. -/
def assign (target source : Obj) : Obj :=
  source.foldl (fun acc p => setF acc p.1 p.2) target

/-- The client identifier stamped as `source` on locally originated change
records (`CLIENTID` in the source). -/
def CLIENTID : String := "local-client-id"

/-- Name of the internal last-fetched timestamp field (`LAST_FETCHED`). -/
def LAST_FETCHED : String := "__last_fetch"

/-- Number of seconds after which data is considered stale
(`REFRESH_INTERVAL`). -/
def REFRESH_INTERVAL : ℚ := 60

/-- JS numeric coercion for the values that can appear in arithmetic in the
embedded code paths: numbers are themselves, `null` is `0`, booleans are
`0`/`1`; strings are not modelled (`none` stands for NaN, so that every
comparison against it is false, as in JS). -/
def jsNumCoerce : JVal → Option ℚ
  | .num q => some q
  | .jnull => some 0
  | .jbool b => some (if b then 1 else 0)
  | .str _ => none

/-- `objectsAreStale(objs)` at time `now`: some object's
`__last_fetch + REFRESH_INTERVAL * 1000` is in the past.  An object without
a numeric timestamp is never stale (NaN comparisons are false in JS). -/
def objectsAreStale (objs : List Obj) (now : ℚ) : Bool :=
  objs.any fun obj =>
    match (getF obj LAST_FETCHED).bind jsNumCoerce with
    | some t => decide (t + REFRESH_INTERVAL * 1000 < now)
    | none => false

/-- A query-parameter value: a plain value, or an array (for `__in`). -/
inductive QVal where
  | val (v : JVal)
  | arr (l : List JVal)
deriving DecidableEq, Repr

/-- Whether a query-parameter value is a plain (non-array) value. -/
def isValQ : QVal → Bool
  | .val _ => true
  | .arr _ => false

/-- Static description of an `IndexedDBResource`: primary-key field and
declared index fields. -/
structure ResourceDef where
  idField : String
  indexFields : List String
deriving DecidableEq, Repr

/-- Whether a declared index field is a compound index.  The source tests
`f.split('+').length === 1`; a field is compound exactly when it contains
a `'+'` character. -/
def isCompound (f : String) : Bool := f.toList.any (fun c => c == '+')

/-- `this.indexFields`: the id field plus every non-compound index field. -/
def isIndexed (r : ResourceDef) (f : String) : Bool :=
  f == r.idField || (r.indexFields.filter (fun g => !isCompound g)).contains f

/-- Split a character list on every (leftmost, non-overlapping) occurrence
of the two-character separator `"__"` — the behaviour of
`key.split('__')` in JS, written over `List Char` so that it evaluates in
the kernel. -/
def splitOnUU : List Char → List (List Char)
  | [] => [[]]
  | '_' :: '_' :: rest => [] :: splitOnUU rest
  | c :: rest =>
    match splitOnUU rest with
    | [] => [[c]]
    | seg :: segs => (c :: seg) :: segs

/-- `const [rootParam, suffix] = key.split(SUFFIX_SEPERATOR)`: the first
segment and, when present, the second. -/
def splitKey (key : String) : String × Option String :=
  match splitOnUU key.toList with
  | [] => (key, none)
  | [r] => (String.mk r, none)
  | r :: s :: _ => (String.mk r, some (String.mk s))

/-- `VALID_SUFFIXES`: the recognised query suffixes. -/
def VALID_SUFFIXES : List String := ["in", "gt", "gte", "lt", "lte"]

/-- The four partitions `where` builds from its parameters: indexed
equality parameters, non-indexed parameters, membership (`__in`)
parameters, and range-suffixed parameters. -/
structure PartitionedParams where
  whereParams : List (String × QVal)
  filterParams : List (String × QVal)
  arrayParams : List (String × QVal)
  suffixedParams : List (String × List (String × QVal))
deriving Repr

/-- Association-list write with JS-object semantics (overwrite in place if
the key exists, else append). -/
def aset {β : Type} (l : List (String × β)) (k : String) (v : β) : List (String × β) :=
  if l.any (fun p => p.1 == k) then l.map (fun p => if p.1 == k then (k, v) else p)
  else l ++ [(k, v)]

/-- Association-list lookup. -/
def aget {β : Type} (l : List (String × β)) (k : String) : Option β :=
  (l.find? (fun p => p.1 == k)).map (fun p => p.2)

/-- `Object.assign` for association lists: write every binding of the
second list onto the first. -/
def asetAll {β : Type} (t s : List (String × β)) : List (String × β) :=
  s.foldl (fun acc p => aset acc p.1 p.2) t

/-- One step of the parameter partition loop of `IndexedDBResource.where`:
a suffixed parameter with a valid non-`in` suffix goes to
`suffixedParams`; otherwise an indexed rootParam goes to `arrayParams`
(suffix `in`) or `whereParams` (no suffix), an indexed rootParam with an
unrecognised truthy suffix is dropped, and a non-indexed rootParam goes to
`filterParams`. -/
def partitionStep (r : ResourceDef) (acc : PartitionedParams) (kv : String × QVal) :
    PartitionedParams :=
  let rs := splitKey kv.1
  let suffixTruthy : Bool :=
    match rs.2 with
    | some s => s != ""
    | none => false
  if suffixTruthy && VALID_SUFFIXES.contains (rs.2.getD "") && rs.2.getD "" != "in" then
    let inner := (aget acc.suffixedParams rs.1).getD []
    ⟨acc.whereParams, acc.filterParams, acc.arrayParams,
      aset acc.suffixedParams rs.1 (aset inner (rs.2.getD "") kv.2)⟩
  else if isIndexed r rs.1 then
    if rs.2 == some "in" then
      ⟨acc.whereParams, acc.filterParams, aset acc.arrayParams rs.1 kv.2, acc.suffixedParams⟩
    else if !suffixTruthy then
      ⟨aset acc.whereParams rs.1 kv.2, acc.filterParams, acc.arrayParams, acc.suffixedParams⟩
    else acc
  else ⟨acc.whereParams, aset acc.filterParams rs.1 kv.2, acc.arrayParams, acc.suffixedParams⟩

/-- The full parameter partition of `IndexedDBResource.where`. -/
def partitionParams (r : ResourceDef) (params : List (String × QVal)) : PartitionedParams :=
  params.foldl (partitionStep r) ⟨[], [], [], []⟩

/-- IndexedDB key ordering for the key types that occur here: numbers in
numeric order, then strings in lexicographic order. -/
def idbKeyLt : JVal → JVal → Bool
  | .num a, .num b => decide (a < b)
  | .str a, .str b => decide (a < b)
  | .num _, .str _ => true
  | _, _ => false

/-- Stable insertion: `x` is placed before the first element not strictly
before it. -/
def insertStable {α : Type} (before : α → α → Bool) (x : α) : List α → List α
  | [] => [x]
  | y :: ys => if before y x then y :: insertStable before x ys else x :: y :: ys

/-- Stable sort by a strict comparison. -/
def sortStable {α : Type} (before : α → α → Bool) (l : List α) : List α :=
  l.foldr (insertStable before) []

/-- `table.where(field).anyOf(values)`: the records whose `field` value is
one of `values`, in index order (sorted by the field's key value; records
missing the field are not in the index).  Dexie accepts a single key in
place of an array. -/
def anyOfIndex (table : List Obj) (field : String) (q : QVal) : List Obj :=
  let vals : List JVal :=
    match q with
    | .arr l => l
    | .val v => [v]
  sortStable
    (fun a b =>
      match getF a field, getF b field with
      | some x, some y => idbKeyLt x y
      | _, _ => false)
    (table.filter fun o =>
      match getF o field with
      | some x => vals.contains x
      | none => false)

/-- One equality test of the lodash `matches(filterParams)` predicate:
the object's field equals the (plain) parameter value.  An array parameter
value never equals a stored primitive. -/
def singleMatch (o : Obj) (kv : String × QVal) : Bool :=
  match kv.2 with
  | .val v => getF o kv.1 == some v
  | .arr _ => false

/-- lodash `matches(filterParams)`. -/
def matchesPred (filterParams : List (String × QVal)) (o : Obj) : Bool :=
  filterParams.all (singleMatch o)

/-- One range-suffix filter function (`lt`/`lte`/`gt`/`gte`).  JS
comparisons against `undefined` (missing field) are false; mixed-type
coercions are not modelled. -/
def suffixFilter (key sfx : String) (value : QVal) (item : Obj) : Bool :=
  match value, getF item key with
  | .val (.num v), some (.num x) =>
    if sfx == "lt" then decide (x < v)
    else if sfx == "lte" then decide (x ≤ v)
    else if sfx == "gt" then decide (v < x)
    else if sfx == "gte" then decide (v ≤ x)
    else false
  | .val (.str v), some (.str x) =>
    if sfx == "lt" then decide (x < v)
    else if sfx == "lte" then (decide (x < v) || x == v)
    else if sfx == "gt" then decide (v < x)
    else if sfx == "gte" then (decide (v < x) || x == v)
    else false
  | _, _ => false

/-- `IndexedDBResource.where(params)` over a table.  Parameters are
partitioned; the base collection comes from the single `__in` parameter
(native `anyOf`), else from the indexed equality parameters (native
`where`, modelled as a filter in table order), else the whole table.  With
exactly one `__in` parameter the indexed equality parameters are merged
into the post-filter (`Object.assign(filterParams, whereParams)`).  With
more than one `__in` parameter the source never assigns `collection`, so
the final `collection.filter(...)`/`collection.toArray()` throws — this is
the `.error "TypeError"` branch. -/
def whereQuery (r : ResourceDef) (params : List (String × QVal)) (table : List Obj) :
    Except String (List Obj) :=
  let pp := partitionParams r params
  let collectionAndFilter : Option (List Obj) × List (String × QVal) :=
    if pp.arrayParams.length != 0 then
      if pp.arrayParams.length == 1 then
        match pp.arrayParams with
        | (k, v) :: _ => (some (anyOfIndex table k v), asetAll pp.filterParams pp.whereParams)
        | [] => (none, pp.filterParams)
      else (none, pp.filterParams)
    else if pp.whereParams.length != 0 then
      (some (table.filter (matchesPred pp.whereParams)), pp.filterParams)
    else (some table, pp.filterParams)
  let fp := collectionAndFilter.2
  let baseFilter : Option (Obj → Bool) :=
    if fp.length != 0 then some (matchesPred fp) else none
  let filterFn : Option (Obj → Bool) :=
    if pp.suffixedParams.length != 0 then
      some fun item =>
        (pp.suffixedParams.all fun ks => ks.2.all fun sv => suffixFilter ks.1 sv.1 sv.2 item)
        && (match baseFilter with
            | some f => f item
            | none => true)
    else baseFilter
  match collectionAndFilter.1 with
  | none => .error "TypeError"
  | some coll =>
    .ok (match filterFn with
        | some f => coll.filter f
        | none => coll)

/-- `Resource.where(params)`: resolve the local query; an empty result
delegates to the remote collection fetch (`remote` stands for the
`requestCollection` outcome); a non-empty stale result triggers a
background fetch that is not awaited.  The second component records
whether such a background (non-awaited) fetch was fired. -/
def resourceWhere (r : ResourceDef) (params : List (String × QVal)) (table : List Obj)
    (now : ℚ) (remote : Except String (List Obj)) : Except String (List Obj) × Bool :=
  match whereQuery r params table with
  | .error e => (.error e, false)
  | .ok objs =>
    if objs.isEmpty then (remote, false)
    else (.ok objs, objectsAreStale objs now)

/-- `CHANGE_TYPES`. -/
inductive ChangeType where
  | CREATED
  | UPDATED
  | DELETED
  | MOVED
  | COPIED
  | CREATED_RELATION
  | DELETED_RELATION
deriving DecidableEq, Repr

/-- A change record of the shared change-log table, as used by the flat
resources: `obj` is the full object of a CREATED record, `mods` the
modifications of an UPDATED record. -/
structure ChangeRec where
  key : JVal
  table : String
  type : ChangeType
  obj : Obj := []
  mods : Obj := []
deriving DecidableEq, Repr

/-- The per-type key-to-record maps that `fetchCollection` builds from
`collectChanges(mergeAllChanges(changes, true))` (those helpers live in
`mergeChanges.js`/`applyRemoteChanges.js`): for each change type, the
merged pending change for each key. -/
structure Collected where
  created : List (JVal × ChangeRec) := []
  updated : List (JVal × ChangeRec) := []
  deleted : List (JVal × ChangeRec) := []
  moved : List (JVal × ChangeRec) := []
deriving DecidableEq, Repr

/-- Lookup in a collected-changes map; a missing id finds nothing. -/
def cget (m : List (JVal × ChangeRec)) : Option JVal → Option ChangeRec
  | none => none
  | some k => (m.find? (fun p => p.1 == k)).map (fun p => p.2)

/-- The per-item body of the `fetchCollection` reconciliation
(`Resource.fetchCollection`): stamp the fetch time, stamp the annotated
filters, then overlay a pending CREATED change's full object and a pending
UPDATED change's `mods`. -/
def reconcileItem (idField : String) (now : ℚ) (af : Obj) (cc : Collected) (datum : Obj) :
    Obj :=
  let d1 := setF datum LAST_FETCHED (.num now)
  let d2 := assign d1 af
  let idv := getF d2 idField
  let d3 :=
    match cget cc.created idv with
    | some chg => assign d2 chg.obj
    | none => d2
  match cget cc.updated idv with
  | some chg => assign d3 chg.mods
  | none => d3

/-- The batch that `Resource.fetchCollection` hands to `bulkPut`: every
fetched item reconciled with its pending local change, with items under a
pending DELETED change dropped.  (The subsequent replay of pending MOVED
changes happens after this bulk write and does not alter the batch.) -/
def reconcileFetch (idField : String) (now : ℚ) (af : Obj) (cc : Collected)
    (itemData : List Obj) : List Obj :=
  (itemData.map (reconcileItem idField now af cc)).filter fun d =>
    (cget cc.deleted (getF d idField)).isNone

/-- Modelled from the spec: one reduction step of the Change Merger
(`mergeAllChanges` in `mergeChanges.js`, which is not among the provided
source files).  Per spec §4.5: any record followed by DELETED collapses to
DELETED; later records for a deleted key that are not themselves DELETED
are discarded; CREATED followed by UPDATED collapses to CREATED with the
UPDATED `mods` merged into the created object; UPDATED followed by UPDATED
merges the `mods`; otherwise the later record wins. -/
def mergeTwoChanges (eff next : ChangeRec) : ChangeRec :=
  if next.type = ChangeType.DELETED then next
  else if eff.type = ChangeType.DELETED then eff
  else if eff.type = ChangeType.CREATED ∧ next.type = ChangeType.UPDATED then
    { eff with obj := assign eff.obj next.mods }
  else if eff.type = ChangeType.UPDATED ∧ next.type = ChangeType.UPDATED then
    { eff with mods := assign eff.mods next.mods }
  else next

/-- Modelled from the spec: the Change Merger's effect on the ordered
sequence of change records sharing one key — fold the reduction rules in
insertion (causal) order, producing the one effective record for that key
(`none` for an empty sequence). -/
def mergeChangesForKey (changes : List ChangeRec) : Option ChangeRec :=
  changes.foldl
    (fun acc c =>
      match acc with
      | none => some c
      | some e => some (mergeTwoChanges e c))
    none

/-- `RELATIVE_TREE_POSITIONS`. -/
inductive TreePosition where
  | first_child
  | last_child
  | left
  | right
deriving DecidableEq, Repr

/-- A row of the tree table. -/
structure TreeNode where
  id : String
  parent : String
  lft : Option ℚ := none
  tree_id : String := ""
  channel_id : String := ""
  source_id : Option String := none
  level : Option ℤ := none
deriving DecidableEq, Repr

/-- JS arithmetic coercion of an `lft` value: `null` coerces to `0`. -/
def jsLft (x : Option ℚ) : ℚ := x.getD 0

/-- JS array indexing `l[i]`: negative or out-of-range indices give
`undefined`. -/
def jsGet (l : List TreeNode) (i : ℤ) : Option TreeNode :=
  if 0 ≤ i then l[i.toNat]? else none

/-- lodash `findIndex`: the index of the first match, `-1` when none. -/
def jsFindIndex (p : TreeNode → Bool) : List TreeNode → ℤ
  | [] => -1
  | x :: xs =>
    if p x then 0
    else
      let r := jsFindIndex p xs
      if r < 0 then -1 else r + 1

/-- `collection.sortBy('lft')`: stable sort ascending by `lft`. -/
def sortByLft (l : List TreeNode) : List TreeNode :=
  sortStable (fun a b => decide (jsLft a.lft < jsLft b.lft)) l

/-- `this.table.where({ parent }).sortBy('lft')`: the children of a node,
ascending by `lft`. -/
def childrenOf (tree : List TreeNode) (x : String) : List TreeNode :=
  sortByLft (tree.filter fun n => n.parent == x)

/-- `Tree.resolveParent(target, position)`: first/last-child resolve to the
target itself; sibling-relative positions resolve to the target node's
parent, rejecting with a RangeError when the target does not exist. -/
def resolveParent (tree : List TreeNode) (target : String) (position : TreePosition) :
    Except String String :=
  match position with
  | .first_child => .ok target
  | .last_child => .ok target
  | _ =>
    match tree.find? (fun n => n.id == target) with
    | some node => .ok node.parent
    | none => .error ("RangeError: Target " ++ target ++ " does not exist")

/-- `Tree.getNewSortOrder(id, target, position, siblings)`.  `.ok none` is
the JS `null` (no-op); `.error` is a thrown TypeError (property access on
`undefined`, which in the source happens whenever `siblings` is empty, and
in the left/right branches when the target is not among the siblings). -/
def getNewSortOrder (id target : String) (position : TreePosition)
    (siblings : List TreeNode) : Except String (Option ℚ) :=
  match siblings with
  | [] => .error "TypeError"
  | s0 :: rest =>
    let sibs := s0 :: rest
    let tIdx : ℤ := jsFindIndex (fun s => s.id == target) sibs
    if (position == TreePosition.first_child && s0.id == id)
        || (position == TreePosition.last_child && (rest.getLastD s0).id == id)
        || (position == TreePosition.left && decide (0 < tIdx)
            && ((jsGet sibs (tIdx - 1)).map TreeNode.id == some id))
        || (position == TreePosition.right && decide (tIdx < (sibs.length : ℤ) - 2)
            && ((jsGet sibs (tIdx + 1)).map TreeNode.id == some id)) then
      .ok none
    else
      match position with
      | .first_child => .ok (some (jsLft s0.lft / 2))
      | .last_child => .ok (some (jsLft (rest.getLastD s0).lft + 1))
      | .left =>
        match jsGet sibs tIdx with
        | some t =>
          let leftSort : ℚ :=
            match jsGet sibs (tIdx - 1) with
            | some s => jsLft s.lft
            | none => 0
          .ok (some ((leftSort + jsLft t.lft) / 2))
        | none => .error "TypeError"
      | .right =>
        match jsGet sibs tIdx with
        | some t =>
          let rightSort : ℚ :=
            match jsGet sibs (tIdx + 1) with
            | some s => jsLft s.lft
            | none => jsLft t.lft + 2
          .ok (some ((jsLft t.lft + rightSort) / 2))
        | none => .error "TypeError"

/-- A record written to the change-log table by the tree engine: a MOVED
record carries `mods = \x7b target, position \x7d` and the old object; a
COPIED-shaped record (written by `tableCopy`, with a possibly overridden
type) additionally carries `from_key` and `mods.lft`/`mods.channel_id`. -/
structure TreeChangeRecord where
  key : String
  type : ChangeType
  target : String
  position : TreePosition
  from_key : Option String := none
  modsLft : Option (Option ℚ) := none
  modsChannel : Option String := none
  oldObj : Option TreeNode := none
  source : String
deriving DecidableEq, Repr

/-- The state touched by the tree engine: the tree table, the change-log
table, the supply of fresh uuids, and the content-node table (only its
ids matter here). -/
structure TreeState where
  tree : List TreeNode
  changes : List TreeChangeRecord := []
  supply : List String := []
  contentNodes : List String := []
deriving DecidableEq, Repr

/-- Dexie `table.put(data)`: replace the record with the same primary key,
or append. -/
def putNode (tree : List TreeNode) (data : TreeNode) : List TreeNode :=
  if tree.any (fun n => n.id == data.id) then
    tree.map fun n => if n.id == data.id then data else n
  else tree ++ [data]

/-- Dexie `table.update(id, { parent, lft })`: write the two fields onto
the existing record; the Bool reports whether a record was updated. -/
def updateNodePos (tree : List TreeNode) (id parentV : String) (lftV : Option ℚ) :
    List TreeNode × Bool :=
  if tree.any (fun n => n.id == id) then
    (tree.map fun n =>
        if n.id == id then { n with parent := parentV, lft := lftV } else n,
      true)
  else (tree, false)

/-- The value `tableMove` resolves with: the partial `\x7b id, parent, lft \x7d`
update object, or the full put object (whose extra fields are `some`). -/
structure MoveData where
  id : String
  parent : String
  lft : Option ℚ
  tree_id : Option String := none
  channel_id : Option String := none
  source_id : Option (Option String) := none
deriving DecidableEq, Repr

/-- The shared ordering step of `tableMove`/`tableCopy`: with siblings
present the new `lft` is whatever `getNewSortOrder` returns (possibly
`null`); with no siblings the `lft` is 1 and the change's target/position
are rewritten to last-child of the resolved parent. -/
def resolveSortOrder (id target : String) (position : TreePosition) (parent : String)
    (siblings : List TreeNode) : Except String (Option ℚ × String × TreePosition) :=
  if siblings.isEmpty then .ok (some 1, parent, TreePosition.last_child)
  else
    match getNewSortOrder id target position siblings with
    | .error e => .error e
    | .ok v => .ok (v, target, position)

/-- `Tree.tableMove(id, target, position)`: resolve the parent and its
siblings; with siblings present the new `lft` is whatever
`getNewSortOrder` returns (including `null`), else `lft = 1` and the
change's target/position are rewritten to last-child of the parent; update
the node (or put a full node, inheriting `tree_id`/`channel_id` from the
parent, when it does not exist); then append a MOVED change record
carrying the old object. -/
def tableMove (st : TreeState) (id target : String) (position : TreePosition) :
    Except String (TreeState × MoveData) :=
  match resolveParent st.tree target position with
  | .error e => .error e
  | .ok parent =>
    match resolveSortOrder id target position parent (childrenOf st.tree parent) with
    | .error e => .error e
    | .ok (lftV, target2, position2) =>
      let oldObj := st.tree.find? (fun n => n.id == id)
      let upd := updateNodePos st.tree id parent lftV
      let afterWrite : Except String (List TreeNode × MoveData) :=
        if upd.2 then .ok (upd.1, ⟨id, parent, lftV, none, none, none⟩)
        else
          match st.tree.find? (fun n => n.id == parent) with
          | none => .error "TypeError"
          | some parentNode =>
            let dataN : TreeNode :=
              ⟨id, parent, lftV, parentNode.tree_id, parentNode.channel_id, none, none⟩
            .ok (putNode st.tree dataN,
              ⟨id, parent, lftV, some parentNode.tree_id, some parentNode.channel_id,
                some none⟩)
      match afterWrite with
      | .error e => .error e
      | .ok (tree2, data) =>
        .ok (⟨tree2,
            st.changes ++ [⟨id, ChangeType.MOVED, target2, position2, none, none, none,
              oldObj, CLIENTID⟩],
            st.supply, st.contentNodes⟩,
          data)

/-- `Tree.tableCopy(id, target, position, changeType)`: same ordering
computation as `tableMove`, but a fresh id is allocated (drawn here from
the state's uuid supply), `source_id` is set to the original,
`tree_id`/`level` come from the resolved parent node and `channel_id` from
the source node, the new node is put, and a change record with
`from_key`/`mods` is appended. -/
def tableCopy (st : TreeState) (id target : String) (position : TreePosition)
    (changeType : ChangeType) : Except String (TreeState × TreeNode) :=
  match resolveParent st.tree target position with
  | .error e => .error e
  | .ok parent =>
    match resolveSortOrder id target position parent (childrenOf st.tree parent) with
    | .error e => .error e
    | .ok (lftV, target2, position2) =>
      match st.supply with
      | [] => .error "uuid supply exhausted"
      | fresh :: supplyRest =>
        match st.tree.find? (fun n => n.id == id),
            st.tree.find? (fun n => n.id == parent) with
        | some node, some parentNode =>
          let data : TreeNode :=
            ⟨fresh, parentNode.id, lftV, parentNode.tree_id, node.channel_id, some id,
              parentNode.level.map (fun lv => lv + 1)⟩
          .ok (⟨putNode st.tree data,
              st.changes ++ [⟨fresh, changeType, target2, position2, some id, some lftV,
                some node.channel_id, none, CLIENTID⟩],
              supplyRest, st.contentNodes⟩,
            data)
        | _, _ => .error "TypeError"

/-- The sequential traversal of the children chunks in `Tree.copy`: each
child is copied as last-child of the freshly copied parent, and the result
lists are concatenated in child order. -/
def copyChildren (cp : TreeState → String → Except String (TreeState × List TreeNode)) :
    TreeState → List TreeNode → Except String (TreeState × List TreeNode)
  | st, [] => .ok (st, [])
  | st, c :: cs =>
    match cp st c.id with
    | .error e => .error e
    | .ok (st1, rs) =>
      match copyChildren cp st1 cs with
      | .error e => .error e
      | .ok (st2, rest) => .ok (st2, rs ++ rest)

/-- `ContentNode.table.bulkPut` of bare id records: add each id that is
not already present. -/
def bulkPutIds (l : List String) (ids : List String) : List String :=
  ids.foldl (fun acc i => if acc.contains i then acc else acc ++ [i]) l

/-- `Tree.copy(id, target, position, deep, changeType)`: copy the node via
`tableCopy`; when `deep`, query the original node's children (ascending by
`lft`) and recurse on each as last-child of the new copy, prepending the
root copy to the concatenated child results; when the change type is not
COPIED, additionally put bare content nodes for every result id.  The
`fuel` argument only bounds the recursion depth of the embedding; an
exhausted supply of fuel rejects, so every `.ok` run is a faithful run of
the source. -/
def copyRec (fuel : Nat) (st : TreeState) (id target : String) (position : TreePosition)
    (deep : Bool) (changeType : ChangeType) : Except String (TreeState × List TreeNode) :=
  match fuel with
  | 0 => .error "recursion bound exhausted"
  | fuel' + 1 =>
    match tableCopy st id target position changeType with
    | .error e => .error e
    | .ok (st1, data) =>
      if deep then
        match
          copyChildren
            (fun s cid => copyRec fuel' s cid data.id TreePosition.last_child deep changeType)
            st1 (childrenOf st1.tree id) with
        | .error e => .error e
        | .ok (st2, childResults) =>
          let results := data :: childResults
          if changeType == ChangeType.COPIED then .ok (st2, results)
          else
            .ok (⟨st2.tree, st2.changes, st2.supply,
                bulkPutIds st2.contentNodes (results.map TreeNode.id)⟩,
              results)
      else
        if changeType == ChangeType.COPIED then .ok (st1, [data])
        else
          .ok (⟨st1.tree, st1.changes, st1.supply, bulkPutIds st1.contentNodes [data.id]⟩,
            [data])

/-- The preorder enumeration of a subtree in a fixed tree table, children
taken ascending by `lft` — the originals a deep copy traverses. -/
def subtreeIds (fuel : Nat) (tree : List TreeNode) (id : String) : List String :=
  match fuel with
  | 0 => []
  | fuel' + 1 => id :: (childrenOf tree id).flatMap fun c => subtreeIds fuel' tree c.id

/-- Invariant threaded through a deep copy: relative to the reference tree
`T0`, the full uuid supply `S0` and the root insertion parent `p0`, the
state's supply is the unconsumed suffix of `S0` and the tree is `T0` plus
new nodes whose parents are `p0` or fresh ids and whose ids are consumed
fresh ids. -/
def goodState (T0 : List TreeNode) (S0 : List String) (p0 : String) (st : TreeState) :
    Prop :=
  ∃ pre extra,
    S0 = pre ++ st.supply ∧ st.tree = T0 ++ extra ∧
    (∀ n ∈ extra, n.parent = p0 ∨ n.parent ∈ S0) ∧
    (∀ n ∈ extra, n.id ∈ pre)

/-- Demo sibling with `lft = 1` under parent `"p"`. -/
def demoS1 : TreeNode := ⟨"a", "p", some 1, "", "", none, none⟩

/-- Demo sibling with `lft = 2` under parent `"p"`. -/
def demoS2 : TreeNode := ⟨"b", "p", some 2, "", "", none, none⟩

/-- Demo sibling with `lft = 3` under parent `"p"`. -/
def demoS3 : TreeNode := ⟨"c", "p", some 3, "", "", none, none⟩

/-- Demo resource for the membership-query scenario: primary key `id`, no
extra indexes (so `x` is a non-indexed filter parameter). -/
def demoR5 : ResourceDef := ⟨"id", []⟩

/-- Demo item `\x7b id: 1, x: 1 \x7d`. -/
def demoItem1 : Obj := [("id", .num 1), ("x", .num 1)]

/-- Demo item `\x7b id: 2, x: 2 \x7d`. -/
def demoItem2 : Obj := [("id", .num 2), ("x", .num 2)]

/-- Demo item `\x7b id: 3, x: 1 \x7d`. -/
def demoItem3 : Obj := [("id", .num 3), ("x", .num 1)]

/-- Demo resource with two indexed fields, for the multi-`__in` scenario. -/
def demoR6 : ResourceDef := ⟨"id", ["language"]⟩

/-- Demo parameters supplying two membership filters on indexed fields. -/
def demoParams6 : List (String × QVal) :=
  [("id__in", .arr [.num 1, .num 2]), ("language__in", .arr [.str "en"])]

/-- Demo object that satisfies both membership filters of `demoParams6`. -/
def demoItem6 : Obj := [("id", .num 1), ("language", .str "en")]

/-- Demo locally cached object whose last fetch was at time 0. -/
def demoStale : Obj := [("id", .num 1), (LAST_FETCHED, .num 0)]

/-- Demo tree state for the no-op move: two children of `"p"`, the first
already in first position. -/
def demoMoveSt : TreeState := ⟨[demoS1, demoS2], [], [], []⟩

/-- Demo tree for the deep-copy scenario: a copy target `"t"`, and a
three-level subtree `"a"` (children `"b"`, `"c"`; grandchild `"d"`). -/
def demoCopyTree : List TreeNode :=
  [⟨"t", "", some 1, "T", "C", none, some 0⟩,
   ⟨"a", "t", some 1, "T", "C", none, some 1⟩,
   ⟨"b", "a", some 1, "T", "C", none, some 2⟩,
   ⟨"c", "a", some 2, "T", "C", none, some 2⟩,
   ⟨"d", "b", some 1, "T", "C", none, some 3⟩]

/-- Demo state for the deep-copy scenario, with four fresh uuids. -/
def demoCopySt : TreeState := ⟨demoCopyTree, [], ["n1", "n2", "n3", "n4"], []⟩

/-- Demo pending CREATED change for key 1 (a locally created object the
server does not know about yet). -/
def demoCreatedChange : ChangeRec :=
  ⟨.num 1, "channel", .CREATED, [("id", .num 1), ("name", .str "local")], []⟩

/-- Demo collected pending changes: a CREATED change for key 1. -/
def demoCollected : Collected := ⟨[(.num 1, demoCreatedChange)], [], [], []⟩

/-- Demo fetched item for key 1 (the server's version of the object). -/
def demoFetched : Obj := [("id", .num 1), ("name", .str "server")]

/-- The four nodes a deep copy of `"a"` into `"t"` creates (as computed by
`copyRec` on `demoCopySt`). -/
def demoCopyResults : List TreeNode :=
  [⟨"n1", "t", none, "T", "C", some "a", some 1⟩,
   ⟨"n2", "n1", some 1, "T", "C", some "b", some 2⟩,
   ⟨"n3", "n2", some 1, "T", "C", some "d", some 3⟩,
   ⟨"n4", "n1", some 2, "T", "C", some "c", some 2⟩]

/-- The final state of the demo deep copy. -/
def demoCopyOutSt : TreeState :=
  ⟨demoCopyTree ++ demoCopyResults,
   [⟨"n1", .COPIED, "t", .last_child, some "a", some none, some "C", none, CLIENTID⟩,
    ⟨"n2", .COPIED, "n1", .last_child, some "b", some (some 1), some "C", none, CLIENTID⟩,
    ⟨"n3", .COPIED, "n2", .last_child, some "d", some (some 1), some "C", none, CLIENTID⟩,
    ⟨"n4", .COPIED, "n1", .last_child, some "c", some (some 2), some "C", none, CLIENTID⟩],
   [], []⟩

/-! Lookup lemmas for the JS-object embedding. -/

theorem getF_append (l1 l2 : Obj) (k : String) :
    getF (l1 ++ l2) k = (getF l2 k).or (getF l1 k) := by
  induction l1 with
  | nil => simp [getF]
  | cons p l1' ih =>
    simp only [List.cons_append, getF]
    rw [show l1'.append l2 = l1' ++ l2 from rfl, ih, Option.or_assoc]

theorem getF_replaceF_self (o : Obj) (k : String) (v : JVal) :
    getF (replaceF o k v) k = if o.any (fun p => p.1 == k) then some v else none := by
  induction o with
  | nil => simp [replaceF, getF]
  | cons p rest ih =>
    by_cases hp : p.1 = k
    · simp only [replaceF, if_pos hp, getF, ih, List.any_cons, hp, beq_self_eq_true,
        Bool.true_or, if_true]
      by_cases hr : rest.any (fun p => p.1 == k) <;> simp [hr]
    · have hpb : (p.1 == k) = false := beq_eq_false_iff_ne.mpr hp
      simp only [replaceF, if_neg hp, getF, ih, List.any_cons, hpb, Bool.false_or, hp,
        if_false, Option.or_none]

theorem getF_replaceF_ne (o : Obj) (k : String) (v : JVal) (k' : String) (h : k' ≠ k) :
    getF (replaceF o k v) k' = getF o k' := by
  induction o with
  | nil => rfl
  | cons p rest ih =>
    by_cases hp : p.1 = k
    · simp only [replaceF, if_pos hp, getF, ih, hp]
      have : k ≠ k' := fun hc => h hc.symm
      simp [this]
    · simp only [replaceF, if_neg hp, getF, ih]

theorem getF_setF_self (o : Obj) (k : String) (v : JVal) :
    getF (setF o k v) k = some v := by
  unfold setF
  by_cases h : o.any (fun p => p.1 == k)
  · simp [h, getF_replaceF_self]
  · simp only [h, if_false, Bool.false_eq_true, getF_append, getF]
    simp

theorem getF_setF_ne (o : Obj) (k : String) (v : JVal) (k' : String) (h : k' ≠ k) :
    getF (setF o k v) k' = getF o k' := by
  unfold setF
  by_cases ha : o.any (fun p => p.1 == k)
  · simp [ha, getF_replaceF_ne _ _ _ _ h]
  · have : k ≠ k' := fun hc => h hc.symm
    simp [ha, getF_append, getF, this]

theorem getF_assign (t s : Obj) (k : String) :
    getF (assign t s) k = (getF s k).or (getF t k) := by
  induction s generalizing t with
  | nil => simp [assign, getF]
  | cons p s' ih =>
    rw [show assign t (p :: s') = assign (setF t p.1 p.2) s' from rfl, ih]
    simp only [getF]
    cases hk : getF s' k with
    | some w => simp
    | none =>
      by_cases hp : p.1 = k
      · subst hp
        simp [getF_setF_self]
      · have : k ≠ p.1 := fun hc => hp hc.symm
        simp [getF_setF_ne _ _ _ _ this, hp]

/-- C8: `resolveParent(target, position)` resolves to the target itself for
first-child and last-child; for the sibling-relative positions it resolves
to the target node's parent, and rejects with a RangeError when the target
node does not exist in the tree table. -/
theorem resolveParent_spec (tree : List TreeNode) (target : String) :
    (resolveParent tree target TreePosition.first_child = .ok target)
  ∧ (resolveParent tree target TreePosition.last_child = .ok target)
  ∧ (∀ pos, pos = TreePosition.left ∨ pos = TreePosition.right →
      (∀ node, tree.find? (fun n => n.id == target) = some node →
        resolveParent tree target pos = .ok node.parent)
      ∧ (tree.find? (fun n => n.id == target) = none →
        resolveParent tree target pos
          = .error ("RangeError: Target " ++ target ++ " does not exist"))) := by
  refine ⟨rfl, rfl, ?_⟩
  intro pos hpos
  rcases hpos with h | h <;> subst h <;>
    exact ⟨fun node hf => by simp [resolveParent, hf], fun hf => by simp [resolveParent, hf]⟩

/-- Witness for C8 at a concrete tree: first-child resolves to the target
itself, left-of resolves to the found node's parent, and a missing target
rejects with the RangeError message. -/
theorem resolveParent_spec_witness :
    resolveParent [demoS1, demoS2] "b" TreePosition.first_child = .ok "b"
  ∧ resolveParent [demoS1, demoS2] "b" TreePosition.left = .ok "p"
  ∧ resolveParent [demoS1, demoS2] "zz" TreePosition.right
      = .error ("RangeError: Target " ++ "zz" ++ " does not exist") := by
  refine ⟨(resolveParent_spec [demoS1, demoS2] "b").1, ?_, ?_⟩
  · exact ((resolveParent_spec [demoS1, demoS2] "b").2.2 TreePosition.left (Or.inl rfl)).1
      demoS2 (by decide)
  · exact ((resolveParent_spec [demoS1, demoS2] "zz").2.2 TreePosition.right (Or.inr rfl)).2
      (by decide)

theorem mergeFold_created (key : JVal) (tbl : String) (modsList : List Obj) :
    ∀ eff : ChangeRec, eff.type = ChangeType.CREATED →
      List.foldl
          (fun acc c =>
            match acc with
            | none => some c
            | some e => some (mergeTwoChanges e c))
          (some eff)
          (modsList.map fun m => ⟨key, tbl, ChangeType.UPDATED, [], m⟩)
        = some { eff with obj := modsList.foldl assign eff.obj } := by
  induction modsList with
  | nil => intro eff _; simp
  | cons m ms ih =>
    intro eff heff
    have hmerge :
        mergeTwoChanges eff ⟨key, tbl, ChangeType.UPDATED, [], m⟩
          = { eff with obj := assign eff.obj m } := by
      simp [mergeTwoChanges, heff]
    simp only [List.map_cons, List.foldl_cons, hmerge]
    rw [ih { eff with obj := assign eff.obj m } (by simp [heff])]

/-- C9: merging an ordered single-key sequence of change records yields one
effective record: a CREATED record followed by UPDATED records collapses to
one CREATED record whose object is the created object with all UPDATED
mods applied in insertion order, and any sequence ending in DELETED
collapses to exactly the DELETED record, discarding all prior records for
the key. -/
theorem mergeChanges_spec :
    (∀ (c0 : ChangeRec) (modsList : List Obj), c0.type = ChangeType.CREATED →
      mergeChangesForKey
          (c0 :: modsList.map fun m => ⟨c0.key, c0.table, ChangeType.UPDATED, [], m⟩)
        = some { c0 with obj := modsList.foldl assign c0.obj })
  ∧ (∀ (pre : List ChangeRec) (d : ChangeRec), d.type = ChangeType.DELETED →
      mergeChangesForKey (pre ++ [d]) = some d) := by
  constructor
  · intro c0 modsList h
    simp only [mergeChangesForKey, List.foldl_cons]
    exact mergeFold_created c0.key c0.table modsList c0 h
  · intro pre d hd
    simp only [mergeChangesForKey, List.foldl_append, List.foldl_cons, List.foldl_nil]
    cases List.foldl
        (fun acc c =>
          match acc with
          | none => some c
          | some e => some (mergeTwoChanges e c))
        none pre with
    | none => rfl
    | some e => simp [mergeTwoChanges, hd]

/-- Witness for C9: a concrete CREATED record followed by two UPDATED
records merges to one CREATED record with both mods applied in order, and
a concrete sequence ending in DELETED merges to just the DELETED record. -/
theorem mergeChanges_spec_witness :
    mergeChangesForKey
        [⟨.num 1, "channel", ChangeType.CREATED, [("name", .str "a")], []⟩,
         ⟨.num 1, "channel", ChangeType.UPDATED, [], [("name", .str "b")]⟩,
         ⟨.num 1, "channel", ChangeType.UPDATED, [], [("x", .num 2)]⟩]
      = some ⟨.num 1, "channel", ChangeType.CREATED,
          [[("name", .str "b")], [("x", .num 2)]].foldl assign [("name", .str "a")], []⟩
  ∧ mergeChangesForKey
        [⟨.num 1, "channel", ChangeType.CREATED, [("name", .str "a")], []⟩,
         ⟨.num 1, "channel", ChangeType.DELETED, [], []⟩]
      = some ⟨.num 1, "channel", ChangeType.DELETED, [], []⟩ :=
  ⟨mergeChanges_spec.1 ⟨.num 1, "channel", ChangeType.CREATED, [("name", .str "a")], []⟩
      [[("name", .str "b")], [("x", .num 2)]] rfl,
   mergeChanges_spec.2 [⟨.num 1, "channel", ChangeType.CREATED, [("name", .str "a")], []⟩]
      ⟨.num 1, "channel", ChangeType.DELETED, [], []⟩ rfl⟩

/-- C3 (evidence of the divergence): with siblings `a` (lft 1) and `b`
(lft 2) sorted ascending, moving `b` right-of `a` is a no-op — `b` already
is the immediate right neighbour of `a` — yet `getNewSortOrder` does not
return `null`: the guard `targetNodeIndex < siblings.length - 2` misses
the case where the moved node is the last sibling, so a fresh midpoint
`3/2` is computed instead. -/
theorem getNewSortOrder_rightAdjacentLast :
    getNewSortOrder "b" "a" TreePosition.right [demoS1, demoS2] = .ok (some (3 / 2))
  ∧ getNewSortOrder "b" "a" TreePosition.right [demoS1, demoS2] ≠ .ok none := by
  with_unfolding_all decide

/-- C4: `Resource.where` resolves with the remote fetch outcome when the
local result is empty; with a non-empty stale local result it resolves
with the local result for every remote outcome — the background refresh is
fired (second component) but never awaited, and its failure is not
surfaced. -/
theorem resourceWhere_staleWhileRevalidate (r : ResourceDef)
    (params : List (String × QVal)) (table : List Obj) (now : ℚ) (objs : List Obj)
    (h : whereQuery r params table = .ok objs) :
    (objs = [] → ∀ remote, resourceWhere r params table now remote = (remote, false))
  ∧ (objs ≠ [] → objectsAreStale objs now = true →
      ∀ remote, (resourceWhere r params table now remote).1 = .ok objs
        ∧ (resourceWhere r params table now remote).2 = true) := by
  constructor
  · intro he remote
    subst he
    simp [resourceWhere, h]
  · intro hne hstale remote
    have hemp : objs.isEmpty = false := by
      cases objs with
      | nil => exact absurd rfl hne
      | cons a l => rfl
    simp [resourceWhere, h, hemp, hstale]

/-- Witness for C4: one locally cached object fetched at time 0 is stale at
time 100000; `where` resolves with it even when the background refresh
fails with a network error, and the background refresh is fired. -/
theorem resourceWhere_staleWhileRevalidate_witness :
    (resourceWhere ⟨"id", []⟩ [] [demoStale] 100000 (.error "NetworkError")).1
      = .ok [demoStale]
  ∧ (resourceWhere ⟨"id", []⟩ [] [demoStale] 100000 (.error "NetworkError")).2 = true :=
  (resourceWhere_staleWhileRevalidate ⟨"id", []⟩ [] [demoStale] 100000 [demoStale]
      (by with_unfolding_all decide)).2
    (by simp) (by with_unfolding_all decide) (.error "NetworkError")

theorem find?_update_map {α : Type} (p : α → Bool) (f : α → α)
    (hf : ∀ a, p a = true → p (f a) = true) :
    ∀ (l : List α) (x : α), l.find? p = some x →
      (l.map fun a => if p a then f a else a).find? p = some (f x) := by
  intro l
  induction l with
  | nil => intro x hx; simp [List.find?] at hx
  | cons y ys ih =>
    intro x hx
    by_cases hpy : p y = true
    · rw [List.find?_cons_of_pos _ hpy] at hx
      injection hx with hx'
      subst hx'
      simp only [List.map_cons, if_pos hpy]
      exact List.find?_cons_of_pos _ (hf y hpy)
    · have hpy' : p y = false := by
        cases hyv : p y
        · rfl
        · exact absurd hyv hpy
      rw [List.find?_cons_of_neg _ (by simp [hpy'])] at hx
      simp only [List.map_cons, if_neg (by simp [hpy'] : ¬p y = true)]
      rw [List.find?_cons_of_neg _ (by simp [hpy'])]
      exact ih x hx

/-- C10: when the node has siblings and already satisfies the requested
position (`getNewSortOrder` returns `null`), `tableMove` is not a no-op:
it still writes `\x7b parent, lft: null \x7d` onto the node — overwriting its
`lft` with `null` — and still appends a MOVED change record for the
move. -/
theorem tableMove_noopWritesNull (st : TreeState) (id target : String)
    (position : TreePosition) (parent : String) (node : TreeNode)
    (hres : resolveParent st.tree target position = .ok parent)
    (hnoop : getNewSortOrder id target position (childrenOf st.tree parent) = .ok none)
    (hnode : st.tree.find? (fun n => n.id == id) = some node) :
    ∃ st2 d, tableMove st id target position = .ok (st2, d)
      ∧ st2.tree.find? (fun n => n.id == id)
          = some { node with parent := parent, lft := none }
      ∧ st2.changes = st.changes
          ++ [⟨id, ChangeType.MOVED, target, position, none, none, none, some node,
              CLIENTID⟩]
      ∧ d = ⟨id, parent, none, none, none, none⟩ := by
  have hempty : (childrenOf st.tree parent).isEmpty = false := by
    cases hsib : childrenOf st.tree parent with
    | nil =>
      rw [hsib] at hnoop
      exact absurd hnoop (by simp [getNewSortOrder])
    | cons s0 rest => rfl
  have hany : st.tree.any (fun n => n.id == id) = true := by
    have hp := List.find?_some hnode
    rw [List.any_eq_true]
    exact ⟨node, List.mem_of_find?_eq_some hnode, hp⟩
  have hso : resolveSortOrder id target position parent (childrenOf st.tree parent)
      = .ok (none, target, position) := by
    simp only [resolveSortOrder, hempty, hnoop, Bool.false_eq_true, if_false]
  have hrun : tableMove st id target position
      = .ok (⟨st.tree.map
              (fun n => if n.id == id then { n with parent := parent, lft := none } else n),
            st.changes ++ [⟨id, ChangeType.MOVED, target, position, none, none, none,
              some node, CLIENTID⟩],
            st.supply, st.contentNodes⟩,
          ⟨id, parent, none, none, none, none⟩) := by
    simp only [tableMove, hres, hso, updateNodePos, hany, hnode, Bool.false_eq_true,
      if_false, if_true]
  refine ⟨_, _, hrun, ?_, rfl, rfl⟩
  exact find?_update_map (fun n => n.id == id)
    (fun n => { n with parent := parent, lft := none }) (fun a ha => ha) st.tree node hnode

/-- Witness for C10: moving `"a"` (already the first child of `"p"`) to
first-child of `"p"` rewrites its `lft` from `1` to `null` and appends a
MOVED change record. -/
theorem tableMove_noopWritesNull_witness :
    ∃ st2 d, tableMove demoMoveSt "a" "p" TreePosition.first_child = .ok (st2, d)
      ∧ st2.tree.find? (fun n => n.id == "a")
          = some { demoS1 with parent := "p", lft := none }
      ∧ st2.changes = demoMoveSt.changes
          ++ [⟨"a", ChangeType.MOVED, "p", TreePosition.first_child, none, none, none,
              some demoS1, CLIENTID⟩]
      ∧ d = ⟨"a", "p", none, none, none, none⟩ :=
  tableMove_noopWritesNull demoMoveSt "a" "p" TreePosition.first_child "p" demoS1
    (by with_unfolding_all decide) (by with_unfolding_all decide)
    (by with_unfolding_all decide)

/-- C1: for every item of a collection fetch response, the reconciliation
in `Resource.fetchCollection` applies the merged pending local change for
the item's key before persisting.  With `cc` the per-type merged-change
maps: a pending CREATED change overlays its full object onto the fetched
item (which is still stamped with the fetch time, so its last-fetched
marker equals `now`); a pending UPDATED change overlays its `mods`; a
pending DELETED change removes the item from the persisted batch. -/
theorem fetchCollection_reconciliation (idField : String) (now : ℚ) (af : Obj)
    (cc : Collected) (itemData : List Obj)
    (hidf : idField ≠ LAST_FETCHED)
    (hafId : getF af idField = none) (hafLf : getF af LAST_FETCHED = none) :
    (∀ datum k chg, datum ∈ itemData → getF datum idField = some k →
      cget cc.created (some k) = some chg → cget cc.updated (some k) = none →
      cget cc.deleted (some k) = none →
      (getF chg.obj idField = none ∨ getF chg.obj idField = some k) →
      getF chg.obj LAST_FETCHED = none →
      assign (assign (setF datum LAST_FETCHED (JVal.num now)) af) chg.obj
          ∈ reconcileFetch idField now af cc itemData
        ∧ getF (assign (assign (setF datum LAST_FETCHED (JVal.num now)) af) chg.obj)
            LAST_FETCHED = some (JVal.num now))
  ∧ (∀ datum k chg, datum ∈ itemData → getF datum idField = some k →
      cget cc.created (some k) = none → cget cc.updated (some k) = some chg →
      cget cc.deleted (some k) = none →
      (getF chg.mods idField = none ∨ getF chg.mods idField = some k) →
      assign (assign (setF datum LAST_FETCHED (JVal.num now)) af) chg.mods
          ∈ reconcileFetch idField now af cc itemData)
  ∧ (∀ k c, cget cc.deleted (some k) = some c →
      ∀ d ∈ reconcileFetch idField now af cc itemData, getF d idField ≠ some k) := by
  have hstamp : ∀ datum k, getF datum idField = some k →
      getF (assign (setF datum LAST_FETCHED (JVal.num now)) af) idField = some k := by
    intro datum k hd
    rw [getF_assign, hafId, getF_setF_ne _ _ _ _ hidf, hd]
    rfl
  refine ⟨?_, ?_, ?_⟩
  · intro datum k chg hdm hd hcr hup hdel hobjId hobjLf
    have hid2 := hstamp datum k hd
    have hri : reconcileItem idField now af cc datum
        = assign (assign (setF datum LAST_FETCHED (JVal.num now)) af) chg.obj := by
      simp only [reconcileItem, hid2, hcr, hup]
    have hid3 : getF (assign (assign (setF datum LAST_FETCHED (JVal.num now)) af) chg.obj)
        idField = some k := by
      rw [getF_assign]
      rcases hobjId with h | h <;> simp [h, hid2]
    constructor
    · rw [reconcileFetch, List.mem_filter]
      refine ⟨hri ▸ List.mem_map_of_mem (reconcileItem idField now af cc) hdm, ?_⟩
      rw [hid3, hdel]
      rfl
    · rw [getF_assign, hobjLf, getF_assign, hafLf, getF_setF_self]
      rfl
  · intro datum k chg hdm hd hcr hup hdel hmodsId
    have hid2 := hstamp datum k hd
    have hri : reconcileItem idField now af cc datum
        = assign (assign (setF datum LAST_FETCHED (JVal.num now)) af) chg.mods := by
      simp only [reconcileItem, hid2, hcr, hup]
    have hid3 : getF (assign (assign (setF datum LAST_FETCHED (JVal.num now)) af) chg.mods)
        idField = some k := by
      rw [getF_assign]
      rcases hmodsId with h | h <;> simp [h, hid2]
    rw [reconcileFetch, List.mem_filter]
    refine ⟨hri ▸ List.mem_map_of_mem (reconcileItem idField now af cc) hdm, ?_⟩
    rw [hid3, hdel]
    rfl
  · intro k c hdelk d hdmem hcontra
    rw [reconcileFetch, List.mem_filter] at hdmem
    rw [hcontra, hdelk] at hdmem
    exact absurd hdmem.2 (by simp)

/-- Witness for C1: a fetched item for key 1 that also has a pending local
CREATED change ends up in the persisted batch as the fetched item overlaid
with the locally created object, and its last-fetched marker is the fetch
time. -/
theorem fetchCollection_reconciliation_witness :
    assign (assign (setF demoFetched LAST_FETCHED (JVal.num 5)) []) demoCreatedChange.obj
        ∈ reconcileFetch "id" 5 [] demoCollected [demoFetched]
      ∧ getF (assign (assign (setF demoFetched LAST_FETCHED (JVal.num 5)) [])
          demoCreatedChange.obj) LAST_FETCHED = some (JVal.num 5) :=
  (fetchCollection_reconciliation "id" 5 [] demoCollected [demoFetched]
      (by decide) rfl rfl).1
    demoFetched (.num 1) demoCreatedChange (by simp) (by with_unfolding_all decide)
    (by with_unfolding_all decide) rfl rfl (Or.inr (by with_unfolding_all decide))
    (by with_unfolding_all decide)

theorem jsFindIndex_append (p : TreeNode → Bool) (pre : List TreeNode) (tn : TreeNode)
    (post : List TreeNode) (hpre : ∀ a ∈ pre, p a = false) (htn : p tn = true) :
    jsFindIndex p (pre ++ tn :: post) = (pre.length : ℤ) := by
  induction pre with
  | nil => simp [jsFindIndex, htn]
  | cons a pre' ih =>
    have ha : p a = false := hpre a (List.mem_cons_self a pre')
    have ih' := ih fun x hx => hpre x (List.mem_cons_of_mem a hx)
    have hnn : ¬((pre'.length : ℤ) < 0) := by omega
    simp only [List.cons_append, jsFindIndex, ha, Bool.false_eq_true, if_false]
    rw [show pre'.append (tn :: post) = pre' ++ tn :: post from rfl, ih', if_neg hnn]
    simp only [List.length_cons]
    omega

theorem jsGet_natCast (l : List TreeNode) (n : ℕ) : jsGet l (n : ℤ) = l[n]? := by
  unfold jsGet
  rw [if_pos (Int.natCast_nonneg n)]
  simp

theorem jsGet_at_target (pre : List TreeNode) (tn : TreeNode) (post : List TreeNode) :
    jsGet (pre ++ tn :: post) (pre.length : ℤ) = some tn := by
  rw [jsGet_natCast, List.getElem?_append_right (le_refl _)]
  simp

theorem jsGet_left_neighbor (pre : List TreeNode) (tn : TreeNode) (post : List TreeNode) :
    jsGet (pre ++ tn :: post) ((pre.length : ℤ) - 1) = pre.getLast? := by
  cases pre with
  | nil =>
    simp only [List.length_nil, Nat.cast_zero, zero_sub, List.getLast?_nil]
    unfold jsGet
    rw [if_neg (by omega)]
  | cons q qs =>
    have hcast : ((q :: qs).length : ℤ) - 1 = ((qs.length : ℕ) : ℤ) := by
      simp only [List.length_cons]
      push_cast
      ring
    rw [hcast, jsGet_natCast,
      List.getElem?_append_left (by simp [Nat.lt_succ_self]), List.getLast?_eq_getElem?]
    simp

theorem jsGet_right_neighbor (pre : List TreeNode) (tn : TreeNode) (post : List TreeNode) :
    jsGet (pre ++ tn :: post) ((pre.length : ℤ) + 1) = post.head? := by
  have hcast : (pre.length : ℤ) + 1 = ((pre.length + 1 : ℕ) : ℤ) := by push_cast; ring
  rw [hcast, jsGet_natCast, List.getElem?_append_right (by omega)]
  have : pre.length + 1 - pre.length = 1 := by omega
  rw [this]
  cases post <;> simp

theorem getLast?_cons_getLastD {α : Type} (s0 : α) (rest : List α) :
    (s0 :: rest).getLast? = some (rest.getLastD s0) := by
  induction rest generalizing s0 with
  | nil => rfl
  | cons r rs ih =>
    rw [List.getLast?_cons_cons, ih r, List.getLastD_cons]

/-- C2: for a non-empty sibling list sorted ascending by `lft`, when
`getNewSortOrder` is not a no-op it returns: half the first sibling's
`lft` for first-child; the last sibling's `lft` plus 1 for last-child; the
midpoint between the immediate left neighbour's `lft` (or 0 when none) and
the target's `lft` for left-of; the midpoint between the target's `lft`
and the immediate right neighbour's `lft` (or the target's `lft` plus 2
when none) for right-of.  In particular, for siblings with `lft` 1, 2, 3,
inserting left of the middle sibling yields `lft = 3/2`, strictly between
its neighbours. -/
theorem getNewSortOrder_formulas (id target : String) (siblings : List TreeNode)
    (hne : siblings ≠ [])
    (hsorted : siblings.Pairwise fun a b => jsLft a.lft ≤ jsLft b.lft) :
    (∀ v s0 rest, siblings = s0 :: rest →
      getNewSortOrder id target TreePosition.first_child siblings = .ok (some v) →
      v = jsLft s0.lft / 2)
  ∧ (∀ v lastN, siblings.getLast? = some lastN →
      getNewSortOrder id target TreePosition.last_child siblings = .ok (some v) →
      v = jsLft lastN.lft + 1)
  ∧ (∀ v pre tn post, siblings = pre ++ tn :: post → tn.id = target →
      (∀ x ∈ pre, x.id ≠ target) →
      getNewSortOrder id target TreePosition.left siblings = .ok (some v) →
      v = ((match pre.getLast? with
            | some nb => jsLft nb.lft
            | none => 0) + jsLft tn.lft) / 2)
  ∧ (∀ v pre tn post, siblings = pre ++ tn :: post → tn.id = target →
      (∀ x ∈ pre, x.id ≠ target) →
      getNewSortOrder id target TreePosition.right siblings = .ok (some v) →
      v = (jsLft tn.lft + (match post.head? with
            | some nb => jsLft nb.lft
            | none => jsLft tn.lft + 2)) / 2)
  ∧ (getNewSortOrder "newnode" "b" TreePosition.left [demoS1, demoS2, demoS3]
        = .ok (some (3 / 2))
      ∧ (1 : ℚ) < 3 / 2 ∧ (3 : ℚ) / 2 < 2) := by
  refine ⟨?_, ?_, ?_, ?_, by with_unfolding_all decide⟩
  · intro v s0 rest hs hrun
    rw [hs] at hrun
    simp only [getNewSortOrder] at hrun
    split at hrun
    · exact absurd hrun (by simp)
    · simp only [Except.ok.injEq, Option.some.injEq] at hrun
      exact hrun.symm
  · intro v lastN hlast hrun
    cases hs : siblings with
    | nil => exact absurd hs hne
    | cons s0 rest =>
      rw [hs, getLast?_cons_getLastD] at hlast
      injection hlast with hlast'
      rw [hs] at hrun
      simp only [getNewSortOrder] at hrun
      split at hrun
      · exact absurd hrun (by simp)
      · simp only [Except.ok.injEq, Option.some.injEq] at hrun
        rw [← hrun, hlast']
  · intro v pre tn post hdecomp htn hpre hrun
    cases hs : siblings with
    | nil =>
      rw [hs] at hdecomp
      exact absurd hdecomp.symm (List.append_ne_nil_of_right_ne_nil pre (by simp))
    | cons s0 rest =>
      rw [hs] at hrun hdecomp
      simp only [getNewSortOrder] at hrun
      rw [hdecomp] at hrun
      have hfi : jsFindIndex (fun s => s.id == target) (pre ++ tn :: post)
          = (pre.length : ℤ) :=
        jsFindIndex_append _ pre tn post
          (fun a ha => beq_eq_false_iff_ne.mpr (hpre a ha)) (by simp [htn])
      rw [hfi, jsGet_at_target, jsGet_left_neighbor] at hrun
      split at hrun
      · exact absurd hrun (by simp)
      · cases hlast : pre.getLast? with
        | none =>
          rw [hlast] at hrun
          simp only [Except.ok.injEq, Option.some.injEq] at hrun
          rw [← hrun]
        | some nb =>
          rw [hlast] at hrun
          simp only [Except.ok.injEq, Option.some.injEq] at hrun
          rw [← hrun]
  · intro v pre tn post hdecomp htn hpre hrun
    cases hs : siblings with
    | nil =>
      rw [hs] at hdecomp
      exact absurd hdecomp.symm (List.append_ne_nil_of_right_ne_nil pre (by simp))
    | cons s0 rest =>
      rw [hs] at hrun hdecomp
      simp only [getNewSortOrder] at hrun
      rw [hdecomp] at hrun
      have hfi : jsFindIndex (fun s => s.id == target) (pre ++ tn :: post)
          = (pre.length : ℤ) :=
        jsFindIndex_append _ pre tn post
          (fun a ha => beq_eq_false_iff_ne.mpr (hpre a ha)) (by simp [htn])
      rw [hfi, jsGet_at_target, jsGet_right_neighbor] at hrun
      split at hrun
      · exact absurd hrun (by simp)
      · cases hhead : post.head? with
        | none =>
          rw [hhead] at hrun
          simp only [Except.ok.injEq, Option.some.injEq] at hrun
          rw [← hrun]
        | some nb =>
          rw [hhead] at hrun
          simp only [Except.ok.injEq, Option.some.injEq] at hrun
          rw [← hrun]

/-- Witness for C2 at the concrete 1-2-3 sibling list: inserting left of
the middle sibling is computed by the left-of midpoint formula, producing
`3/2`. -/
theorem getNewSortOrder_formulas_witness :
    getNewSortOrder "newnode" "b" TreePosition.left [demoS1, demoS2, demoS3]
        = .ok (some (3 / 2))
  ∧ (3 : ℚ) / 2 = ((match [demoS1].getLast? with
        | some nb => jsLft nb.lft
        | none => 0) + jsLft demoS2.lft) / 2 :=
  ⟨(getNewSortOrder_formulas "newnode" "b" [demoS1, demoS2, demoS3] (by simp)
      (by with_unfolding_all decide)).2.2.2.2.1,
   (getNewSortOrder_formulas "newnode" "b" [demoS1, demoS2, demoS3] (by simp)
      (by with_unfolding_all decide)).2.2.1 (3 / 2) [demoS1] demoS2 [demoS3] rfl rfl
     (by with_unfolding_all decide)
     (getNewSortOrder_formulas "newnode" "b" [demoS1, demoS2, demoS3] (by simp)
        (by with_unfolding_all decide)).2.2.2.2.1⟩

theorem aset_append {β : Type} (l : List (String × β)) (k : String) (v : β)
    (h : ∀ p ∈ l, p.1 ≠ k) : aset l k v = l ++ [(k, v)] := by
  unfold aset
  rw [if_neg]
  simp only [List.any_eq_true, not_exists, not_and]
  intro p hp
  simp [h p hp]

theorem partitionStep_bare (r : ResourceDef) (acc : PartitionedParams) (k : String)
    (v : QVal) (hk : splitKey k = (k, none)) :
    partitionStep r acc (k, v)
      = if isIndexed r k then
          ⟨aset acc.whereParams k v, acc.filterParams, acc.arrayParams, acc.suffixedParams⟩
        else
          ⟨acc.whereParams, aset acc.filterParams k v, acc.arrayParams,
            acc.suffixedParams⟩ := by
  simp only [partitionStep, hk]
  by_cases hi : isIndexed r k <;> simp [hi]

theorem partitionFold_bare (r : ResourceDef) (eqParams : List (String × QVal)) :
    ∀ acc : PartitionedParams,
      (∀ kv ∈ eqParams, splitKey kv.1 = (kv.1, none)) →
      (∀ kv ∈ eqParams, (∀ p ∈ acc.whereParams, p.1 ≠ kv.1)
        ∧ (∀ p ∈ acc.filterParams, p.1 ≠ kv.1)) →
      (eqParams.map Prod.fst).Nodup →
      eqParams.foldl (partitionStep r) acc
        = ⟨acc.whereParams ++ eqParams.filter (fun kv => isIndexed r kv.1),
           acc.filterParams ++ eqParams.filter (fun kv => !isIndexed r kv.1),
           acc.arrayParams, acc.suffixedParams⟩ := by
  induction eqParams with
  | nil =>
    intro acc _ _ _
    simp
  | cons kv rest ih =>
    intro acc hsplit hdisj hnd
    obtain ⟨k, v⟩ := kv
    have hk : splitKey k = (k, none) := hsplit (k, v) (List.mem_cons_self _ _)
    have hdk := hdisj (k, v) (List.mem_cons_self _ _)
    have hndrest : (rest.map Prod.fst).Nodup := (List.nodup_cons.mp hnd).2
    have hknotin : k ∉ rest.map Prod.fst := (List.nodup_cons.mp hnd).1
    rw [List.foldl_cons, partitionStep_bare r acc k v hk]
    by_cases hi : isIndexed r k
    · rw [if_pos hi,
        ih ⟨aset acc.whereParams k v, acc.filterParams, acc.arrayParams, acc.suffixedParams⟩
          (fun x hx => hsplit x (List.mem_cons_of_mem _ hx))
          (by
            intro x hx
            refine ⟨?_, fun p hp => (hdisj x (List.mem_cons_of_mem _ hx)).2 p hp⟩
            intro p hp
            rw [aset_append acc.whereParams k v hdk.1] at hp
            rcases List.mem_append.mp hp with h | h
            · exact (hdisj x (List.mem_cons_of_mem _ hx)).1 p h
            · simp only [List.mem_singleton] at h
              subst h
              intro hc
              apply hknotin
              have hkx : k = x.1 := hc
              rw [hkx]
              exact List.mem_map_of_mem Prod.fst hx
          )
          hndrest,
        aset_append acc.whereParams k v hdk.1]
      simp only [List.filter_cons, hi, if_pos, Bool.not_true]
      simp [List.append_assoc]
    · rw [if_neg hi,
        ih ⟨acc.whereParams, aset acc.filterParams k v, acc.arrayParams, acc.suffixedParams⟩
          (fun x hx => hsplit x (List.mem_cons_of_mem _ hx))
          (by
            intro x hx
            refine ⟨fun p hp => (hdisj x (List.mem_cons_of_mem _ hx)).1 p hp, ?_⟩
            intro p hp
            rw [aset_append acc.filterParams k v hdk.2] at hp
            rcases List.mem_append.mp hp with h | h
            · exact (hdisj x (List.mem_cons_of_mem _ hx)).2 p h
            · simp only [List.mem_singleton] at h
              subst h
              intro hc
              apply hknotin
              have hkx : k = x.1 := hc
              rw [hkx]
              exact List.mem_map_of_mem Prod.fst hx
          )
          hndrest,
        aset_append acc.filterParams k v hdk.2]
      have hib : isIndexed r k = false := by
        cases hv : isIndexed r k
        · rfl
        · exact absurd hv hi
      simp only [List.filter_cons, hib, Bool.not_false, if_pos]
      simp [List.append_assoc]

theorem asetAll_append {β : Type} (s : List (String × β)) :
    ∀ t : List (String × β),
      (∀ p ∈ s, ∀ q ∈ t, q.1 ≠ p.1) →
      (s.map Prod.fst).Nodup →
      asetAll t s = t ++ s := by
  induction s with
  | nil => intro t _ _; simp [asetAll]
  | cons p s' ih =>
    intro t hdisj hnd
    have hstep : aset t p.1 p.2 = t ++ [p] := by
      rw [aset_append t p.1 p.2 (fun q hq => hdisj p (List.mem_cons_self _ _) q hq)]
    rw [show asetAll t (p :: s') = asetAll (aset t p.1 p.2) s' from rfl, hstep,
      ih (t ++ [p])
        (by
          intro x hx q hq
          rcases List.mem_append.mp hq with h | h
          · exact hdisj x (List.mem_cons_of_mem _ hx) q h
          · simp only [List.mem_singleton] at h
            subst h
            intro hc
            exact (List.nodup_cons.mp hnd).1 (hc ▸ List.mem_map_of_mem Prod.fst hx)
        )
        (List.nodup_cons.mp hnd).2]
    simp

theorem all_filter_partition {α : Type} (l : List α) (p q : α → Bool) :
    ((l.filter q).all p && (l.filter fun a => !q a).all p) = l.all p := by
  induction l with
  | nil => rfl
  | cons a l ih =>
    cases hq : q a <;>
      simp only [List.filter_cons, hq, Bool.not_true, Bool.not_false, if_pos, if_false,
        List.all_cons, Bool.false_eq_true, ← ih]
    · rw [Bool.and_left_comm]
    · rw [Bool.and_assoc]

/-- C5: a `where` call with exactly one membership (`__in`) parameter on an
indexed field plus additional equality parameters returns the subset of
the membership match that satisfies every equality parameter, applied as a
post-filter over the native `anyOf` collection.  In particular, on a table
`\x7b id:1,x:1 \x7d, \x7b id:2,x:2 \x7d, \x7b id:3,x:1 \x7d`, the query
`id__in [1,2,3], x = 1` returns exactly the items with id 1 and id 3. -/
theorem whereInPostFilter (r : ResourceDef) (f : String) (vals : List JVal)
    (eqParams : List (String × QVal)) (table : List Obj)
    (hf : isIndexed r f = true)
    (hsplitIn : splitKey (f ++ "__in") = (f, some "in"))
    (heq : ∀ kv ∈ eqParams, splitKey kv.1 = (kv.1, none) ∧ isValQ kv.2 = true)
    (hnd : (eqParams.map Prod.fst).Nodup) :
    whereQuery r ((f ++ "__in", QVal.arr vals) :: eqParams) table
      = .ok ((anyOfIndex table f (QVal.arr vals)).filter
          fun o => eqParams.all (singleMatch o))
  ∧ whereQuery demoR5
        [("id__in", QVal.arr [JVal.num 1, JVal.num 2, JVal.num 3]),
         ("x", QVal.val (JVal.num 1))]
        [demoItem1, demoItem2, demoItem3]
      = .ok [demoItem1, demoItem3] := by
  refine ⟨?_, by with_unfolding_all decide⟩
  have hstep1 : partitionStep r ⟨[], [], [], []⟩ (f ++ "__in", QVal.arr vals)
      = ⟨[], [], [(f, QVal.arr vals)], []⟩ := by
    simp [partitionStep, hsplitIn, hf, aset]
  have hpp : partitionParams r ((f ++ "__in", QVal.arr vals) :: eqParams)
      = ⟨eqParams.filter (fun kv => isIndexed r kv.1),
         eqParams.filter (fun kv => !isIndexed r kv.1),
         [(f, QVal.arr vals)], []⟩ := by
    rw [partitionParams, List.foldl_cons, hstep1,
      partitionFold_bare r eqParams ⟨[], [], [(f, QVal.arr vals)], []⟩
        (fun kv hkv => (heq kv hkv).1)
        (fun kv _ => ⟨fun p hp => absurd hp (List.not_mem_nil p),
                      fun p hp => absurd hp (List.not_mem_nil p)⟩)
        hnd]
    simp
  have hinj := List.inj_on_of_nodup_map hnd
  have hdisj2 : ∀ p ∈ eqParams.filter (fun kv => isIndexed r kv.1),
      ∀ q ∈ eqParams.filter (fun kv => !isIndexed r kv.1), q.1 ≠ p.1 := by
    intro p hp q hq hc
    have hpf := List.mem_filter.mp hp
    have hqf := List.mem_filter.mp hq
    have hqp : q = p := hinj hqf.1 hpf.1 hc
    have h2 := hqf.2
    rw [hqp] at h2
    rw [hpf.2] at h2
    exact absurd h2 (by simp)
  have hndIdx : ((eqParams.filter fun kv => isIndexed r kv.1).map Prod.fst).Nodup :=
    hnd.sublist ((List.filter_sublist eqParams).map Prod.fst)
  have hmerge : asetAll (eqParams.filter fun kv => !isIndexed r kv.1)
      (eqParams.filter fun kv => isIndexed r kv.1)
      = (eqParams.filter fun kv => !isIndexed r kv.1)
        ++ (eqParams.filter fun kv => isIndexed r kv.1) :=
    asetAll_append _ _ hdisj2 hndIdx
  have hallsplit : ∀ o : Obj,
      ((eqParams.filter fun kv => !isIndexed r kv.1).all (singleMatch o)
        && (eqParams.filter fun kv => isIndexed r kv.1).all (singleMatch o))
      = eqParams.all (singleMatch o) := by
    intro o
    have h := all_filter_partition eqParams (singleMatch o) fun kv => !isIndexed r kv.1
    rw [List.filter_congr
        (fun x _ => by simp only [Bool.not_not] :
          ∀ x ∈ eqParams,
            (fun a => !(fun kv => !isIndexed r kv.1) a) x = (fun kv => isIndexed r kv.1) x)]
      at h
    exact h
  by_cases hE : eqParams = []
  · subst hE
    simp [whereQuery, hpp, asetAll]
  · have hex : ∃ kv, kv ∈ (eqParams.filter fun kv => !isIndexed r kv.1)
        ++ (eqParams.filter fun kv => isIndexed r kv.1) := by
      obtain ⟨kv, hkv⟩ := List.exists_mem_of_ne_nil eqParams hE
      cases hi : isIndexed r kv.1
      · exact ⟨kv, List.mem_append.mpr (Or.inl (List.mem_filter.mpr ⟨hkv, by simp [hi]⟩))⟩
      · exact ⟨kv, List.mem_append.mpr (Or.inr (List.mem_filter.mpr ⟨hkv, by simp [hi]⟩))⟩
    have hconsE : ∃ a l', (eqParams.filter fun kv => !isIndexed r kv.1)
        ++ (eqParams.filter fun kv => isIndexed r kv.1) = a :: l' := by
      obtain ⟨kv, hkv⟩ := hex
      cases hl : (eqParams.filter fun kv => !isIndexed r kv.1)
          ++ (eqParams.filter fun kv => isIndexed r kv.1) with
      | nil => rw [hl] at hkv; exact absurd hkv (List.not_mem_nil kv)
      | cons a l => exact ⟨a, l, rfl⟩
    obtain ⟨a, l', hcons⟩ := hconsE
    have hwq : whereQuery r ((f ++ "__in", QVal.arr vals) :: eqParams) table
        = .ok ((anyOfIndex table f (QVal.arr vals)).filter
            (matchesPred ((eqParams.filter fun kv => !isIndexed r kv.1)
              ++ (eqParams.filter fun kv => isIndexed r kv.1)))) := by
      simp only [whereQuery, hpp, hmerge, hcons]
      rfl
    rw [hwq]
    congr 1
    apply List.filter_congr
    intro o _
    rw [matchesPred, List.all_append]
    exact hallsplit o

/-- Witness for C5: the general post-filter equation instantiated at the
concrete 1-2-3 table; the membership match filtered by `x = 1` is exactly
the claimed result list. -/
theorem whereInPostFilter_witness :
    whereQuery demoR5 (("id" ++ "__in", QVal.arr [JVal.num 1, JVal.num 2, JVal.num 3])
        :: [("x", QVal.val (JVal.num 1))]) [demoItem1, demoItem2, demoItem3]
      = .ok ((anyOfIndex [demoItem1, demoItem2, demoItem3] "id"
          (QVal.arr [JVal.num 1, JVal.num 2, JVal.num 3])).filter
          fun o => [("x", QVal.val (JVal.num 1))].all (singleMatch o)) :=
  (whereInPostFilter demoR5 "id" [JVal.num 1, JVal.num 2, JVal.num 3]
      [("x", QVal.val (JVal.num 1))] [demoItem1, demoItem2, demoItem3]
      (by with_unfolding_all decide) (by with_unfolding_all decide)
      (by with_unfolding_all decide) (by with_unfolding_all decide)).1

/-- Counterexample to C6: with two membership (`__in`) parameters on
indexed fields, `where` does not complete with a best-effort subset of the
membership filters — no base collection is ever assigned, so the call
fails (the TypeError of accessing the undefined collection), even though
the table holds an item matching both filters. -/
theorem whereMultiIn_counterexample :
    whereQuery demoR6 demoParams6 [demoItem6] = .error "TypeError"
  ∧ ∀ res, whereQuery demoR6 demoParams6 [demoItem6] ≠ .ok res := by
  have h : whereQuery demoR6 demoParams6 [demoItem6] = .error "TypeError" := by
    with_unfolding_all decide
  refine ⟨h, fun res hres => ?_⟩
  rw [h] at hres
  exact Except.noConfusion hres

/-- C6 (amended): whenever the parameter partition yields two or more
membership (`__in`) parameters, `where` builds no base collection — none
of the membership filters is honoured (only a dev-mode warning is logged)
— and the call fails with the TypeError of the undefined collection. -/
theorem whereMultiIn_fails (r : ResourceDef) (params : List (String × QVal))
    (table : List Obj)
    (h : 2 ≤ (partitionParams r params).arrayParams.length) :
    whereQuery r params table = .error "TypeError" := by
  have h0 : ((partitionParams r params).arrayParams.length != 0) = true := by
    simp only [bne_iff_ne, ne_eq]
    omega
  have h1 : ((partitionParams r params).arrayParams.length == 1) = false := by
    simp only [beq_eq_false_iff_ne, ne_eq]
    omega
  simp only [whereQuery, h0, h1]
  simp

/-- Witness for C6's amended claim at the concrete two-`__in` query. -/
theorem whereMultiIn_fails_witness :
    whereQuery demoR6 demoParams6 [demoItem6] = .error "TypeError" :=
  whereMultiIn_fails demoR6 demoParams6 [demoItem6] (by with_unfolding_all decide)

theorem childrenOf_append_avoid (t extra : List TreeNode) (x : String)
    (h : ∀ n ∈ extra, n.parent ≠ x) :
    childrenOf (t ++ extra) x = childrenOf t x := by
  unfold childrenOf
  have hnil : extra.filter (fun n => n.parent == x) = [] :=
    List.filter_eq_nil_iff.mpr fun n hn => by simp [h n hn]
  rw [List.filter_append, hnil, List.append_nil]

theorem putNode_append (tree : List TreeNode) (data : TreeNode)
    (h : ∀ n ∈ tree, n.id ≠ data.id) : putNode tree data = tree ++ [data] := by
  unfold putNode
  rw [if_neg]
  simp only [List.any_eq_true, not_exists, not_and]
  intro n hn
  simp [h n hn]

theorem tableCopy_ok (st : TreeState) (id target : String) (position : TreePosition)
    (changeType : ChangeType) (st1 : TreeState) (data : TreeNode)
    (h : tableCopy st id target position changeType = .ok (st1, data)) :
    ∃ parent supplyRest node parentNode,
      resolveParent st.tree target position = .ok parent
      ∧ st.supply = data.id :: supplyRest
      ∧ st1.supply = supplyRest
      ∧ st.tree.find? (fun n => n.id == id) = some node
      ∧ st.tree.find? (fun n => n.id == parent) = some parentNode
      ∧ data.parent = parent
      ∧ data.source_id = some id
      ∧ st1.tree = putNode st.tree data
      ∧ st1.contentNodes = st.contentNodes := by
  unfold tableCopy at h
  split at h
  · exact absurd h (by simp)
  · rename_i parent hres
    split at h
    · exact absurd h (by simp)
    · rename_i sout lftV target2 position2 hsort
      split at h
      · exact absurd h (by simp)
      · rename_i fresh supplyRest hsupply
        split at h
        · rename_i node parentNode hfn hfp
          rw [Except.ok.injEq, Prod.mk.injEq] at h
          obtain ⟨hst1, hdata⟩ := h
          have hpid : parentNode.id = parent := by
            have hb := List.find?_some hfp
            exact beq_iff_eq.mp hb
          refine ⟨parent, supplyRest, node, parentNode, hres, ?_, ?_, hfn, hfp, ?_, ?_, ?_, ?_⟩
          · rw [← hdata]; exact hsupply
          · rw [← hst1]
          · rw [← hdata]; exact hpid
          · rw [← hdata]
          · rw [← hst1, ← hdata]
          · rw [← hst1]
        · exact absurd h (by simp)

theorem copyChildren_good (T0 : List TreeNode) (S0 : List String) (p0 : String)
    (fuel : Nat) (changeType : ChangeType) (newParent : String) (hnp : newParent ∈ S0)
    (IH : ∀ (st : TreeState) (id target : String) (position : TreePosition)
        (changeType : ChangeType) (st2 : TreeState) (results : List TreeNode),
      copyRec fuel st id target position true changeType = .ok (st2, results) →
      goodState T0 S0 p0 st →
      (∀ p, resolveParent st.tree target position = .ok p → p = p0 ∨ p ∈ S0) →
      (∀ x ∈ subtreeIds fuel T0 id, x ≠ p0 ∧ x ∉ S0) →
      results.map TreeNode.source_id = (subtreeIds fuel T0 id).map some
        ∧ st2.tree = st.tree ++ results
        ∧ results.map TreeNode.id = st.supply.take results.length
        ∧ st2.supply = st.supply.drop results.length
        ∧ goodState T0 S0 p0 st2) :
    ∀ (cs : List TreeNode) (st : TreeState) (stc : TreeState) (results : List TreeNode),
      copyChildren
          (fun s cid => copyRec fuel s cid newParent TreePosition.last_child true changeType)
          st cs = .ok (stc, results) →
      goodState T0 S0 p0 st →
      (∀ c ∈ cs, ∀ x ∈ subtreeIds fuel T0 c.id, x ≠ p0 ∧ x ∉ S0) →
      results.map TreeNode.source_id
          = (cs.flatMap fun c => subtreeIds fuel T0 c.id).map some
        ∧ stc.tree = st.tree ++ results
        ∧ results.map TreeNode.id = st.supply.take results.length
        ∧ stc.supply = st.supply.drop results.length
        ∧ goodState T0 S0 p0 stc := by
  intro cs
  induction cs with
  | nil =>
    intro st stc results h hgood hsub
    simp only [copyChildren] at h
    rw [Except.ok.injEq, Prod.mk.injEq] at h
    obtain ⟨h1, h2⟩ := h
    subst h1
    rw [← h2]
    refine ⟨by simp, by simp, by simp, by simp, hgood⟩
  | cons c cs' ih =>
    intro st stc results h hgood hsub
    simp only [copyChildren] at h
    split at h
    · exact absurd h (by simp)
    · rename_i st1 rs hcp
      split at h
      · exact absurd h (by simp)
      · rename_i st2' rest hrec
        rw [Except.ok.injEq, Prod.mk.injEq] at h
        obtain ⟨hstc, hres⟩ := h
        have hpar : ∀ p, resolveParent st.tree newParent TreePosition.last_child = .ok p →
            p = p0 ∨ p ∈ S0 := by
          intro p hp
          have hp' : (Except.ok newParent : Except String String) = .ok p := hp
          rw [show p = newParent from (Except.ok.inj hp').symm]
          exact Or.inr hnp
        obtain ⟨ha1, ha2, ha3, ha4, ha5⟩ :=
          IH st c.id newParent TreePosition.last_child changeType st1 rs hcp hgood hpar
            (hsub c (List.mem_cons_self c cs'))
        obtain ⟨hb1, hb2, hb3, hb4, hb5⟩ :=
          ih st1 st2' rest hrec ha5 fun x hx => hsub x (List.mem_cons_of_mem c hx)
        subst hstc
        rw [← hres]
        refine ⟨?_, ?_, ?_, ?_, hb5⟩
        · rw [List.map_append, ha1, hb1, List.flatMap_cons, List.map_append]
        · rw [hb2, ha2, List.append_assoc]
        · rw [List.map_append, ha3, hb3, ha4, List.length_append, List.take_add]
        · rw [hb4, ha4, List.drop_drop, List.length_append]

theorem copyRec_good (T0 : List TreeNode) (S0 : List String) (p0 : String)
    (hS0nd : S0.Nodup) (hS0disj : ∀ s ∈ S0, ∀ n ∈ T0, n.id ≠ s) :
    ∀ (fuel : Nat) (st : TreeState) (id target : String) (position : TreePosition)
      (changeType : ChangeType) (st2 : TreeState) (results : List TreeNode),
      copyRec fuel st id target position true changeType = .ok (st2, results) →
      goodState T0 S0 p0 st →
      (∀ p, resolveParent st.tree target position = .ok p → p = p0 ∨ p ∈ S0) →
      (∀ x ∈ subtreeIds fuel T0 id, x ≠ p0 ∧ x ∉ S0) →
      results.map TreeNode.source_id = (subtreeIds fuel T0 id).map some
        ∧ st2.tree = st.tree ++ results
        ∧ results.map TreeNode.id = st.supply.take results.length
        ∧ st2.supply = st.supply.drop results.length
        ∧ goodState T0 S0 p0 st2 := by
  intro fuel
  induction fuel with
  | zero =>
    intro st id target position changeType st2 results h
    exact absurd h (by simp [copyRec])
  | succ fuel ih =>
    intro st id target position changeType st2 results hrun hgood hpar hsub
    have hunfold : subtreeIds (fuel + 1) T0 id
        = id :: (childrenOf T0 id).flatMap fun c => subtreeIds fuel T0 c.id := rfl
    simp only [copyRec] at hrun
    split at hrun
    · exact absurd hrun (by simp)
    · rename_i st1 data htc
      simp only [if_true] at hrun
      split at hrun
      · exact absurd hrun (by simp)
      · rename_i stc childResults hcc
        obtain ⟨parent, supplyRest, node, parentNode, hres, hsupeq, hsup1, hfn, hfp,
          hdpar, hdsrc, htree1, hcn1⟩ :=
          tableCopy_ok st id target position changeType st1 data htc
        obtain ⟨pre, extra, hsplit, htreeeq, hextrapar, hextraid⟩ := hgood
        obtain ⟨hidp0, hidS0⟩ := hsub id (by rw [hunfold]; exact List.mem_cons_self _ _)
        have hparB : parent = p0 ∨ parent ∈ S0 := hpar parent hres
        have hmemsup : data.id ∈ st.supply := by
          rw [hsupeq]
          exact List.mem_cons_self _ _
        have hfreshS0 : data.id ∈ S0 := by
          rw [hsplit]
          exact List.mem_append_right pre hmemsup
        have hnd2 : (pre ++ st.supply).Nodup := hsplit ▸ hS0nd
        have hnotpre : data.id ∉ pre := fun hc =>
          (List.disjoint_of_nodup_append hnd2) hc hmemsup
        have hfreshtree : ∀ n ∈ st.tree, n.id ≠ data.id := by
          intro n hn
          rw [htreeeq] at hn
          rcases List.mem_append.mp hn with h | h
          · exact hS0disj data.id hfreshS0 n h
          · intro hc
            exact hnotpre (hc ▸ hextraid n h)
        have htree1' : st1.tree = st.tree ++ [data] := by
          rw [htree1, putNode_append st.tree data hfreshtree]
        have hgood1 : goodState T0 S0 p0 st1 := by
          refine ⟨pre ++ [data.id], extra ++ [data], ?_, ?_, ?_, ?_⟩
          · rw [hsup1, hsplit, hsupeq]
            simp
          · rw [htree1', htreeeq, List.append_assoc]
          · intro n hn
            rcases List.mem_append.mp hn with h | h
            · exact hextrapar n h
            · simp only [List.mem_singleton] at h
              subst h
              rw [hdpar]
              exact hparB
          · intro n hn
            rcases List.mem_append.mp hn with h | h
            · exact List.mem_append_left _ (hextraid n h)
            · simp only [List.mem_singleton] at h
              subst h
              exact List.mem_append_right _ (List.mem_singleton.mpr rfl)
        have hkids : childrenOf st1.tree id = childrenOf T0 id := by
          rw [htree1', htreeeq, List.append_assoc]
          apply childrenOf_append_avoid
          intro n hn
          rcases List.mem_append.mp hn with h | h
          · rcases hextrapar n h with h1 | h1
            · rw [h1]
              exact fun hc => hidp0 hc.symm
            · intro hc
              exact hidS0 (hc ▸ h1)
          · simp only [List.mem_singleton] at h
            subst h
            rw [hdpar]
            rcases hparB with h1 | h1
            · rw [h1]
              exact fun hc => hidp0 hc.symm
            · intro hc
              exact hidS0 (hc ▸ h1)
        rw [hkids] at hcc
        have hsubc : ∀ c ∈ childrenOf T0 id, ∀ x ∈ subtreeIds fuel T0 c.id,
            x ≠ p0 ∧ x ∉ S0 := by
          intro c hc x hx
          apply hsub
          rw [hunfold]
          exact List.mem_cons_of_mem _ (List.mem_flatMap.mpr ⟨c, hc, hx⟩)
        obtain ⟨hc1, hc2, hc3, hc4, hc5⟩ :=
          copyChildren_good T0 S0 p0 fuel changeType data.id hfreshS0 ih
            (childrenOf T0 id) st1 stc childResults hcc hgood1 hsubc
        have hres1 : (data :: childResults).map TreeNode.source_id
            = (subtreeIds (fuel + 1) T0 id).map some := by
          rw [hunfold, List.map_cons, List.map_cons, hdsrc, hc1]
        have hres2 : stc.tree = st.tree ++ data :: childResults := by
          rw [hc2, htree1', List.append_assoc]
          rfl
        have hres3 : (data :: childResults).map TreeNode.id
            = st.supply.take (data :: childResults).length := by
          rw [List.map_cons, hc3, hsup1, hsupeq, List.length_cons, List.take_succ_cons]
        have hres4 : stc.supply = st.supply.drop (data :: childResults).length := by
          rw [hc4, hsup1, hsupeq, List.length_cons, List.drop_succ_cons]
        split at hrun
        · rw [Except.ok.injEq, Prod.mk.injEq] at hrun
          obtain ⟨h1, h2⟩ := hrun
          subst h1
          rw [← h2]
          exact ⟨hres1, hres2, hres3, hres4, hc5⟩
        · rw [Except.ok.injEq, Prod.mk.injEq] at hrun
          obtain ⟨h1, h2⟩ := hrun
          rw [← h1, ← h2]
          refine ⟨hres1, hres2, hres3, hres4, ?_⟩
          obtain ⟨pre2, extra2, hq1, hq2, hq3, hq4⟩ := hc5
          exact ⟨pre2, extra2, hq1, hq2, hq3, hq4⟩

/-- C7: a deep `Tree.copy` of a subtree creates exactly one new node per
original node of the subtree — the copies' `source_id`s enumerate the
subtree's preorder traversal (children ascending by `lft`), so each new
node's `source_id` is the id of the original it was copied from — with the
copy of the subtree's root first in the returned result list.  The new
nodes carry fresh ids (none collides with an existing node) and are all
persisted.  Hypotheses: the run succeeds, the uuid supply is duplicate-free
and disjoint from the existing table, and the resolved insertion parent
lies outside the copied subtree. -/
theorem treeDeepCopy_spec (fuel : Nat) (st : TreeState) (id target : String)
    (position : TreePosition) (changeType : ChangeType) (p0 : String)
    (st2 : TreeState) (results : List TreeNode)
    (hrun : copyRec fuel st id target position true changeType = .ok (st2, results))
    (hnd : st.supply.Nodup)
    (hdisj : ∀ s ∈ st.supply, ∀ n ∈ st.tree, n.id ≠ s)
    (hres : resolveParent st.tree target position = .ok p0)
    (havoid : ∀ x ∈ subtreeIds fuel st.tree id, x ≠ p0 ∧ x ∉ st.supply) :
    results.map TreeNode.source_id = (subtreeIds fuel st.tree id).map some
  ∧ (∃ r rest, results = r :: rest ∧ r.source_id = some id)
  ∧ (results.map TreeNode.id).Nodup
  ∧ (∀ r ∈ results, ∀ n ∈ st.tree, n.id ≠ r.id)
  ∧ st2.tree = st.tree ++ results := by
  have hdisj' : ∀ s ∈ st.supply, ∀ n ∈ st.tree, n.id ≠ s := hdisj
  obtain ⟨hsrc, htree, hids, hsup, hgood⟩ :=
    copyRec_good st.tree st.supply p0 hnd hdisj' fuel st id target position changeType
      st2 results hrun ⟨[], [], by simp, by simp, by simp, by simp⟩
      (fun p hp => by rw [hres] at hp; exact Or.inl (Except.ok.inj hp).symm)
      havoid
  refine ⟨hsrc, ?_, ?_, ?_, htree⟩
  · cases hfuel : fuel with
    | zero =>
      rw [hfuel] at hrun
      exact absurd hrun (by simp [copyRec])
    | succ f =>
      rw [hfuel] at hsrc
      cases hr : results with
      | nil =>
        rw [hr] at hsrc
        have : subtreeIds (f + 1) st.tree id
            = id :: (childrenOf st.tree id).flatMap fun c => subtreeIds f st.tree c.id :=
          rfl
        rw [this] at hsrc
        exact absurd hsrc (by simp)
      | cons r rest =>
        refine ⟨r, rest, rfl, ?_⟩
        rw [hr] at hsrc
        have : subtreeIds (f + 1) st.tree id
            = id :: (childrenOf st.tree id).flatMap fun c => subtreeIds f st.tree c.id :=
          rfl
        rw [this, List.map_cons, List.map_cons] at hsrc
        exact (List.cons_eq_cons.mp hsrc).1
  · rw [hids]
    exact hnd.sublist (List.take_sublist results.length st.supply)
  · intro r hrmem n hn
    have hmemtake : r.id ∈ st.supply.take results.length := by
      rw [← hids]
      exact List.mem_map_of_mem TreeNode.id hrmem
    have hrS : r.id ∈ st.supply :=
      (List.take_sublist results.length st.supply).mem hmemtake
    exact hdisj r.id hrS n hn

/-- Witness for C7: deep-copying the three-level subtree rooted at `"a"`
(children `"b"`, `"c"`, grandchild `"d"`) as last-child of `"t"` produces
four new nodes whose `source_id`s are exactly the preorder enumeration
`a, b, d, c` of the subtree, root copy first. -/
theorem treeDeepCopy_spec_witness :
    copyRec 4 demoCopySt "a" "t" TreePosition.last_child true ChangeType.COPIED
        = .ok (demoCopyOutSt, demoCopyResults)
  ∧ demoCopyResults.map TreeNode.source_id
      = (subtreeIds 4 demoCopySt.tree "a").map some :=
  ⟨by with_unfolding_all decide,
   (treeDeepCopy_spec 4 demoCopySt "a" "t" TreePosition.last_child ChangeType.COPIED "t"
      demoCopyOutSt demoCopyResults (by with_unfolding_all decide)
      (by with_unfolding_all decide) (by with_unfolding_all decide)
      (by with_unfolding_all decide) (by with_unfolding_all decide)).1⟩
